import Mathlib

/-!
Verification of the Othello rules engine (`open_spiel/games/othello.cc`).

The C++ code is shallowly embedded: the board is a total function from cell
indices to cell states, fatal errors (`SpielFatalError`) are modelled by
`Option` results (`none` = fatal), and machine `int`s are `Int`.  The
`while` loop of `CountSteps` is embedded with a fuel parameter; the walk
moves one step per iteration in a fixed direction, so it leaves the 8×8
board after at most 9 iterations and a fuel of 64 is never exhausted.
-/

namespace Othello

/-- Cell states, in the declaration order of the C++ `CellState` enum
(empty = 0, black = 1, white = 2); player 0 is Black, player 1 is White. -/
inductive CellState : Type where
  | empty : CellState
  | black : CellState
  | white : CellState
deriving DecidableEq, Repr

/-- The board `board_`: a total map from cell index `row * 8 + col` to the
cell's state.  Indices outside `[0, 64)` are never read by well-defined
executions (out-of-range access is undefined in the C++). -/
def Board : Type := Int → CellState

/-- `kNumRows`. -/
def kNumRows : Int := 8

/-- `kNumCols`. -/
def kNumCols : Int := 8

/-- `kNumCells`. -/
def kNumCells : Int := 64

/-- Modelled from the spec: the reserved Pass action, distinct from all
cell indices (`kPassMove = kNumCells` in the game header, which is not in
the sources). -/
def kPassMove : Int := 64

/-- Modelled from the spec: the "undecided" outcome value
(`kInvalidPlayer` from the framework's `PlayerId` enum). -/
def kInvalidPlayer : Int := -3

/-- Modelled from the spec: the draw outcome value (`kTerminalPlayerId`
from the framework's `PlayerId` enum). -/
def kTerminalPlayerId : Int := -4

/-- The eight ray directions of the C++ `Direction` enum, in declaration
order (`kUp` … `kDownLeft`). -/
inductive Direction : Type where
  | up | down | left | right | upRight | upLeft | downRight | downLeft
deriving DecidableEq, Repr

/-- The iteration order `kUp; direction < kLast; direction++` of the
direction loops. -/
def allDirections : List Direction :=
  [.up, .down, .left, .right, .upRight, .upLeft, .downRight, .downLeft]

/-- `GetNext(row, col, dir)`: the adjacent coordinates in a direction. -/
def GetNext (row col : Int) (dir : Direction) : Int × Int :=
  match dir with
  | .up => (row - 1, col)
  | .down => (row + 1, col)
  | .left => (row, col - 1)
  | .right => (row, col + 1)
  | .upRight => (row - 1, col + 1)
  | .upLeft => (row - 1, col - 1)
  | .downRight => (row + 1, col + 1)
  | .downLeft => (row + 1, col - 1)

/-- `OnBoard(row, col)`. -/
def OnBoard (row col : Int) : Bool :=
  (0 ≤ row) && (row < kNumRows) && (0 ≤ col) && (col < kNumCols)

/-- `PlayerToState(player)`: player 0 is Black, player 1 is White (the
fatal default branch is unreachable for a valid player id). -/
def PlayerToState (player : Fin 2) : CellState :=
  if player = 0 then .black else .white

/-- `RowColFromMove(move)`: fatal (`none`) when `move` is outside
`[0, 64)`, otherwise `(move / kNumCols, move % kNumRows)`. -/
def RowColFromMove (move : Int) : Option (Int × Int) :=
  if move < 0 ∨ move ≥ kNumCells then none
  else some (move / kNumCols, move % kNumRows)

/-- `RowColToMove(row, col)`: fatal (`none`) when `row < 0` or `col < 0`
or `row * col ≥ kNumCells`, otherwise `row * kNumCols + col`. -/
def RowColToMove (row col : Int) : Option Int :=
  if row < 0 ∨ col < 0 ∨ row * col ≥ kNumCells then none
  else some (row * kNumCols + col)

/-- `BoardAt(row, col)`: read accessor at `row * 8 + col`. -/
def BoardAt (b : Board) (row col : Int) : CellState :=
  b (row * 8 + col)

/-- The `while (OnBoard(row, col))` loop of `CountSteps`, with a fuel
parameter (the walk leaves the board after at most 9 iterations, so any
fuel ≥ 10 gives the loop's exact behaviour). -/
def CountStepsAux (b : Board) (cell : CellState) (dir : Direction) :
    Nat → Int → Int → Nat → Nat
  | 0, _, _, _ => 0
  | fuel + 1, row, col, count =>
    if OnBoard row col then
      if BoardAt b row col = cell then count
      else if BoardAt b row col = CellState.empty then 0
      else
        CountStepsAux b cell dir fuel (GetNext row col dir).1
          (GetNext row col dir).2 (count + 1)
    else 0

/-- `OthelloState::CountSteps(player, move, dir)`: `none` when the initial
`RowColFromMove` is fatal. -/
def CountSteps (b : Board) (player : Fin 2) (move : Int) (dir : Direction) :
    Option Nat :=
  match RowColFromMove move with
  | none => none
  | some (row, col) =>
    some (CountStepsAux b (PlayerToState player) dir 64
      (GetNext row col dir).1 (GetNext row col dir).2 0)

/-- The direction loop of `CanCapture`. -/
def CanCaptureAux (b : Board) (player : Fin 2) (move : Int) :
    List Direction → Option Bool
  | [] => some false
  | d :: ds =>
    match CountSteps b player move d with
    | none => none
    | some k => if k ≠ 0 then some true else CanCaptureAux b player move ds

/-- `OthelloState::CanCapture(player, move)`. -/
def CanCapture (b : Board) (player : Fin 2) (move : Int) : Option Bool :=
  if b move ≠ CellState.empty then some false
  else CanCaptureAux b player move allDirections

/-- `OthelloState::ValidAction(player, move)`:
`board_[move] == kEmpty && CanCapture(player, move)`. -/
def ValidAction (b : Board) (player : Fin 2) (move : Int) : Option Bool :=
  if b move = CellState.empty then CanCapture b player move else some false

/-- Writing one cell of the board. -/
def SetCell (b : Board) (idx : Int) (v : CellState) : Board :=
  fun i => if i = idx then v else b i

/-- The `for (step …)` loop of `Capture`: `none` on the fatal
inconsistency check (empty or own-colored cell) and on a fatal
`RowColToMove`. -/
def CaptureAux (cell : CellState) (dir : Direction) :
    Board → Nat → Int → Int → Option Board
  | b, 0, _, _ => some b
  | b, steps + 1, row, col =>
    if BoardAt b row col = CellState.empty ∨ BoardAt b row col = cell then
      none
    else
      match RowColToMove row col with
      | none => none
      | some idx =>
        CaptureAux cell dir (SetCell b idx cell) steps
          (GetNext row col dir).1 (GetNext row col dir).2

/-- `OthelloState::Capture(player, move, dir, steps)`. -/
def Capture (b : Board) (player : Fin 2) (move : Int) (dir : Direction)
    (steps : Nat) : Option Board :=
  match RowColFromMove move with
  | none => none
  | some (row, col) =>
    CaptureAux (PlayerToState player) dir b steps
      (GetNext row col dir).1 (GetNext row col dir).2

/-- `OthelloState::DiskCount(player)`. -/
def DiskCount (b : Board) (player : Fin 2) : Nat :=
  ((List.range 64).filter fun i => b (Int.ofNat i) = PlayerToState player).length

/-- `OthelloState::LegalRegularActions(p)`: the cells `0 … 63` with
`ValidAction`, in increasing order. -/
def LegalRegularActions (b : Board) (p : Fin 2) : List Int :=
  ((List.range 64).map Int.ofNat).filter
    fun c => ValidAction b p c == some true

/-- `OthelloState::NoValidActions()`. -/
def NoValidActions (b : Board) : Bool :=
  (LegalRegularActions b 0).isEmpty && (LegalRegularActions b 1).isEmpty

/-- The mutable fields of `OthelloState`: the board, `current_player_`
and `outcome_` (an `Int`, `kInvalidPlayer` while undecided). -/
structure OthelloState : Type where
  board : Board
  current : Fin 2
  outcome : Int

/-- `OthelloState::IsTerminal()`. -/
def IsTerminal (s : OthelloState) : Bool :=
  s.outcome != kInvalidPlayer

/-- `OthelloState::Returns()` (the two doubles, as rationals). -/
def Returns (s : OthelloState) : List ℚ :=
  if s.outcome = 0 then [1, -1]
  else if s.outcome = 1 then [-1, 1]
  else [0, 0]

/-- The capture loop of `DoApplyAction`: for each direction recompute
`CountSteps` on the current board and, when positive, `Capture`. -/
def ApplyCapturesAux (p : Fin 2) (move : Int) :
    List Direction → Board → Option Board
  | [], b => some b
  | d :: ds, b =>
    match CountSteps b p move d with
    | none => none
    | some steps =>
      if steps > 0 then
        match Capture b p move d steps with
        | none => none
        | some b2 => ApplyCapturesAux p move ds b2
      else ApplyCapturesAux p move ds b

/-- `OthelloState::DoApplyAction(move)`: `none` on the fatal invalid-move
branch (or on any fatal error inside, including the undefined
out-of-range board read of `ValidAction`, which surfaces as a fatal
`RowColFromMove` inside `CanCapture`). -/
def DoApplyAction (s : OthelloState) (move : Int) : Option OthelloState :=
  if move = kPassMove then
    some { s with current := 1 - s.current }
  else
    match ValidAction s.board s.current move with
    | none => none
    | some false => none
    | some true =>
      let b1 := SetCell s.board move (PlayerToState s.current)
      match ApplyCapturesAux s.current move allDirections b1 with
      | none => none
      | some b2 =>
        if NoValidActions b2 then
          let outcome2 : Int :=
            if DiskCount b2 0 > DiskCount b2 1 then 0
            else if DiskCount b2 0 < DiskCount b2 1 then 1
            else kTerminalPlayerId
          some { board := b2, current := s.current, outcome := outcome2 }
        else
          some { board := b2, current := 1 - s.current, outcome := s.outcome }

/-- `OthelloState::LegalActions()`. -/
def LegalActions (s : OthelloState) : List Int :=
  if IsTerminal s then []
  else
    let moves := LegalRegularActions s.board s.current
    if moves.isEmpty then [kPassMove] else moves

/-- The initial board of the `OthelloState` constructor: cells 27 and 36
white, 28 and 35 black, all others empty. -/
def InitialBoard : Board := fun i =>
  if i = 27 then .white
  else if i = 28 then .black
  else if i = 35 then .black
  else if i = 36 then .white
  else .empty

/-- The initial state: player 0 to move, outcome undecided. -/
def InitialState : OthelloState :=
  { board := InitialBoard, current := 0, outcome := kInvalidPlayer }

/-- `static_cast<int>(board_[cell])`: the numeric value of a cell state in
enum declaration order. -/
def cellValue : CellState → Fin 3
  | .empty => 0
  | .black => 1
  | .white => 2

/-- The 3 × 64 observation tensor. -/
def Tensor : Type := Fin 3 → Fin 64 → ℚ

/-- One `view[{channel, cell}] = 1.0` write. -/
def TSet (t : Tensor) (ch : Fin 3) (cell : Fin 64) (v : ℚ) : Tensor :=
  fun c i => if c = ch ∧ i = cell then v else t c i

/-- The body of the cell loop of `ObservationTensor`. -/
def ObsWrite (player : Fin 2) (b : Board) (t : Tensor) (cell : Fin 64) :
    Tensor :=
  let v := cellValue (b (cell : Int))
  if player = 1 then
    if v = 2 then TSet t 1 cell 1
    else if v = 1 then TSet t 2 cell 1
    else TSet t 0 cell 1
  else TSet t v cell 1

/-- `OthelloState::ObservationTensor(player, values)`: the zero-filled
`TensorView` after the writes of the cell loop. -/
def ObservationTensor (player : Fin 2) (b : Board) : Tensor :=
  (List.finRange 64).foldl (ObsWrite player b) (fun _ _ => 0)

/-! Spec-side definitions used to state the claims. -/

/-- The coordinate offset of one step in a direction. -/
def DirDelta : Direction → Int × Int
  | .up => (-1, 0)
  | .down => (1, 0)
  | .left => (0, -1)
  | .right => (0, 1)
  | .upRight => (-1, 1)
  | .upLeft => (-1, -1)
  | .downRight => (1, 1)
  | .downLeft => (1, -1)

/-- The position reached after `j` applications of `GetNext`. -/
def StepN (row col : Int) (dir : Direction) : Nat → Int × Int
  | 0 => (row, col)
  | j + 1 =>
    let p := StepN row col dir j
    GetNext p.1 p.2 dir

/-- The `j`-th cell visited by the walk of `CountSteps` from `move` in
direction `dir` (`j = 0` is the cell adjacent to `move`). -/
def WalkPos (move : Int) (dir : Direction) (j : Nat) : Int × Int :=
  StepN (GetNext (move / 8) (move % 8) dir).1
    (GetNext (move / 8) (move % 8) dir).2 dir j

/-- The cell at `p` holds the opponent of the player whose color is
`cell`: neither that color nor empty. -/
def IsOpp (b : Board) (cell : CellState) (p : Int × Int) : Prop :=
  BoardAt b p.1 p.2 ≠ cell ∧ BoardAt b p.1 p.2 ≠ CellState.empty

instance (b : Board) (cell : CellState) (p : Int × Int) :
    Decidable (IsOpp b cell p) := by
  unfold IsOpp
  infer_instance

/-- The board index of a coordinate pair. -/
def CellIdx (p : Int × Int) : Int := p.1 * 8 + p.2

/-- Witness board for the endgame claims: cell 0 empty, cell 1 white,
every other cell black. -/
def W1Board : Board := fun i =>
  if i = 0 then CellState.empty
  else if i = 1 then CellState.white
  else CellState.black

/-- Witness state: `W1Board`, player 0 to move, outcome undecided. -/
def W1 : OthelloState :=
  { board := W1Board, current := 0, outcome := kInvalidPlayer }

/-- `W1Board` with the player-0 piece already placed at cell 0. -/
def W1Placed : Board := SetCell W1Board 0 CellState.black

/-- The state reached from `W1` by playing cell 0: the white disk at cell
1 is flipped and the game ends with all 64 disks black. -/
def W1After : OthelloState :=
  { board := SetCell (SetCell W1Board 0 CellState.black) (0 * 8 + 1)
      CellState.black,
    current := 0, outcome := 0 }

/-- Modelled from the spec: the tensor channel that is set to one for a
given cell value — the raw value for player 0, channels 1 and 2 swapped
for player 1. -/
def HotChannel (player : Fin 2) (c : CellState) : Fin 3 :=
  if player = 1 then
    if cellValue c = 2 then 1 else if cellValue c = 1 then 2 else 0
  else cellValue c

/-- Swapping values 1 and 2, fixing 0. -/
def Swap12 : Fin 3 → Fin 3 :=
  fun v => if v = 1 then 2 else if v = 2 then 1 else 0

/-! Geometry of the ray walk. -/

lemma getNext_delta (dir : Direction) (row col : Int) :
    GetNext row col dir = (row + (DirDelta dir).1, col + (DirDelta dir).2) := by
  cases dir <;> simp [GetNext, DirDelta, Prod.ext_iff] <;> omega

lemma stepN_coords (row col : Int) (dir : Direction) :
    ∀ j : Nat, StepN row col dir j =
      (row + j * (DirDelta dir).1, col + j * (DirDelta dir).2) := by
  intro j
  induction j with
  | zero => simp [StepN]
  | succ j ih =>
    simp only [StepN, ih, getNext_delta, Prod.ext_iff]
    push_cast
    constructor <;> ring

lemma stepN_front (row col : Int) (dir : Direction) (j : Nat) :
    StepN row col dir (j + 1) =
      StepN (GetNext row col dir).1 (GetNext row col dir).2 dir j := by
  rw [stepN_coords, stepN_coords, getNext_delta, Prod.ext_iff]
  push_cast
  constructor <;> ring

lemma onBoard_iff {row col : Int} :
    OnBoard row col = true ↔ 0 ≤ row ∧ row < 8 ∧ 0 ≤ col ∧ col < 8 := by
  simp [OnBoard, kNumRows, kNumCols, Bool.and_eq_true, decide_eq_true_eq,
    and_assoc]

lemma playerToState_ne_empty (player : Fin 2) :
    PlayerToState player ≠ CellState.empty := by
  by_cases h : player = 0 <;> simp [PlayerToState, h]

/-- A walk that stays on the board for its first `k` cells has `k ≤ 7`:
one coordinate changes by one each step and the board is 8 wide. -/
lemma walk_onBoard_le (move : Int) (dir : Direction) (k : Nat)
    (h0 : 0 ≤ move) (h1 : move < 64)
    (h : ∀ j, j < k →
      OnBoard (WalkPos move dir j).1 (WalkPos move dir j).2 = true) :
    k ≤ 7 := by
  by_contra hk
  have h7 := h 7 (by omega)
  rw [WalkPos, stepN_coords, getNext_delta] at h7
  rw [onBoard_iff] at h7
  have hr : 0 ≤ move / 8 ∧ move / 8 < 8 := by omega
  have hc : 0 ≤ move % 8 ∧ move % 8 < 8 := by omega
  cases dir <;> simp [DirDelta] at h7 <;> omega

/-- Distinct on-board cells of one walk have distinct board indices. -/
lemma walk_cellIdx_ne (row col : Int) (dir : Direction) (j j' : Nat)
    (hne : j ≠ j')
    (hb1 : OnBoard (StepN row col dir j).1 (StepN row col dir j).2 = true)
    (hb2 : OnBoard (StepN row col dir j').1 (StepN row col dir j').2 = true) :
    CellIdx (StepN row col dir j) ≠ CellIdx (StepN row col dir j') := by
  simp only [stepN_coords] at hb1 hb2 ⊢
  rw [onBoard_iff] at hb1 hb2
  cases dir <;> simp [DirDelta, CellIdx] at hb1 hb2 ⊢ <;> omega

/-! Characterization of the `CountSteps` loop. -/

/-- The loop of `CountSteps`, fully characterized: with the first `k`
visited cells on board and opponent-colored, the loop returns
`count + k` when cell `k` holds the player's color, and `0` when cell
`k` is empty or off the board. -/
lemma countStepsAux_spec (b : Board) (cell : CellState) (dir : Direction)
    (hc : cell ≠ CellState.empty) :
    ∀ (k fuel : Nat) (row col : Int) (count : Nat), k < fuel →
    (∀ j, j < k →
      OnBoard (StepN row col dir j).1 (StepN row col dir j).2 = true ∧
      IsOpp b cell (StepN row col dir j)) →
    ((OnBoard (StepN row col dir k).1 (StepN row col dir k).2 = true ∧
        BoardAt b (StepN row col dir k).1 (StepN row col dir k).2 = cell →
        CountStepsAux b cell dir fuel row col count = count + k) ∧
     (OnBoard (StepN row col dir k).1 (StepN row col dir k).2 = true ∧
        BoardAt b (StepN row col dir k).1 (StepN row col dir k).2 =
          CellState.empty →
        CountStepsAux b cell dir fuel row col count = 0) ∧
     (OnBoard (StepN row col dir k).1 (StepN row col dir k).2 = false →
        CountStepsAux b cell dir fuel row col count = 0)) := by
  intro k
  induction k with
  | zero =>
    intro fuel row col count hf hwalk
    obtain ⟨f, rfl⟩ : ∃ f, fuel = f + 1 := ⟨fuel - 1, by omega⟩
    refine ⟨?_, ?_, ?_⟩ <;> intro h
    · obtain ⟨hob, hcell⟩ := h
      simp only [StepN] at hob hcell
      simp [CountStepsAux, hob, hcell]
    · obtain ⟨hob, hcell⟩ := h
      simp only [StepN] at hob hcell
      have hnc : ¬ BoardAt b row col = cell := by
        rw [hcell]; exact fun hh => hc hh.symm
      simp only [CountStepsAux]
      rw [if_pos hob, if_neg hnc, if_pos hcell]
    · simp only [StepN] at h
      simp [CountStepsAux, h]
  | succ k ih =>
    intro fuel row col count hf hwalk
    obtain ⟨f, rfl⟩ : ∃ f, fuel = f + 1 := ⟨fuel - 1, by omega⟩
    have h0 := hwalk 0 (by omega)
    simp only [StepN] at h0
    obtain ⟨hob0, hopp0⟩ := h0
    have hne : ¬ BoardAt b row col = cell := by
      simpa [IsOpp] using hopp0.1
    have hne2 : ¬ BoardAt b row col = CellState.empty := by
      simpa [IsOpp] using hopp0.2
    have hrec : CountStepsAux b cell dir (f + 1) row col count =
        CountStepsAux b cell dir f (GetNext row col dir).1
          (GetNext row col dir).2 (count + 1) := by
      simp [CountStepsAux, hob0, hne, hne2]
    have hwalk2 : ∀ j, j < k →
        OnBoard (StepN (GetNext row col dir).1 (GetNext row col dir).2 dir j).1
          (StepN (GetNext row col dir).1 (GetNext row col dir).2 dir j).2 =
          true ∧
        IsOpp b cell
          (StepN (GetNext row col dir).1 (GetNext row col dir).2 dir j) := by
      intro j hj
      have := hwalk (j + 1) (by omega)
      rwa [stepN_front] at this
    have ihh := ih f (GetNext row col dir).1 (GetNext row col dir).2
      (count + 1) (by omega) hwalk2
    refine ⟨?_, ?_, ?_⟩ <;> intro h <;> rw [stepN_front] at h
    · rw [hrec, ihh.1 h]; omega
    · rw [hrec]; exact ihh.2.1 h
    · rw [hrec]; exact ihh.2.2 h

/-- Inversion: a positive result of the `CountSteps` loop means the walk
traversed exactly that many on-board opponent cells and then closed on a
cell of the player's own color. -/
lemma countStepsAux_pos (b : Board) (cell : CellState) (dir : Direction) :
    ∀ (fuel : Nat) (row col : Int) (count : Nat),
    0 < CountStepsAux b cell dir fuel row col count →
    ∃ t, CountStepsAux b cell dir fuel row col count = count + t ∧
      (∀ j, j < t →
        OnBoard (StepN row col dir j).1 (StepN row col dir j).2 = true ∧
        IsOpp b cell (StepN row col dir j)) ∧
      OnBoard (StepN row col dir t).1 (StepN row col dir t).2 = true ∧
      BoardAt b (StepN row col dir t).1 (StepN row col dir t).2 = cell := by
  intro fuel
  induction fuel with
  | zero => intro row col count h; simp [CountStepsAux] at h
  | succ f ih =>
    intro row col count h
    by_cases hob : OnBoard row col = true
    · by_cases hcell : BoardAt b row col = cell
      · refine ⟨0, ?_, ?_, ?_, ?_⟩
        · simp [CountStepsAux, hob, hcell]
        · omega
        · simpa [StepN] using hob
        · simpa [StepN] using hcell
      · by_cases hemp : BoardAt b row col = CellState.empty
        · exfalso
          have hz : CountStepsAux b cell dir (f + 1) row col count = 0 := by
            simp only [CountStepsAux]
            rw [if_pos hob, if_neg hcell, if_pos hemp]
          rw [hz] at h
          exact absurd h (by omega)
        · have hrec : CountStepsAux b cell dir (f + 1) row col count =
              CountStepsAux b cell dir f (GetNext row col dir).1
                (GetNext row col dir).2 (count + 1) := by
            simp [CountStepsAux, hob, hcell, hemp]
          rw [hrec] at h
          obtain ⟨t, heq, hwalk, hclose1, hclose2⟩ :=
            ih (GetNext row col dir).1 (GetNext row col dir).2 (count + 1) h
          refine ⟨t + 1, ?_, ?_, ?_, ?_⟩
          · rw [hrec, heq]; omega
          · intro j hj
            match j with
            | 0 =>
              refine ⟨by simpa [StepN] using hob, ?_⟩
              simp only [StepN]
              exact ⟨hcell, hemp⟩
            | j + 1 =>
              rw [stepN_front]
              exact hwalk j (by omega)
          · rwa [stepN_front]
          · rwa [stepN_front]
    · simp [CountStepsAux, hob] at h

lemma rowColFromMove_of_range {move : Int} (h0 : 0 ≤ move) (h1 : move < 64) :
    RowColFromMove move = some (move / 8, move % 8) := by
  rw [RowColFromMove, if_neg]
  · rfl
  · simp only [kNumCells]; omega

lemma rowColToMove_of_onBoard {row col : Int} (h : OnBoard row col = true) :
    RowColToMove row col = some (row * 8 + col) := by
  rw [onBoard_iff] at h
  rw [RowColToMove, if_neg]
  · rfl
  · push_neg
    refine ⟨by omega, by omega, ?_⟩
    simp only [kNumCells]
    nlinarith [h.1, h.2.1, h.2.2.1, h.2.2.2]

lemma countSteps_eq_aux {b : Board} {player : Fin 2} {move : Int}
    {dir : Direction} (h0 : 0 ≤ move) (h1 : move < 64) :
    CountSteps b player move dir =
      some (CountStepsAux b (PlayerToState player) dir 64
        (GetNext (move / 8) (move % 8) dir).1
        (GetNext (move / 8) (move % 8) dir).2 0) := by
  rw [CountSteps, rowColFromMove_of_range h0 h1]

/-- A positive `CountSteps` means: the first `steps` walked cells are
on-board opponent cells, and the walk then closes on the player's own
color. -/
lemma countSteps_pos_inv {b : Board} {player : Fin 2} {move : Int}
    {dir : Direction} {steps : Nat} (h0 : 0 ≤ move) (h1 : move < 64)
    (hcs : CountSteps b player move dir = some steps) (hpos : 0 < steps) :
    (∀ j, j < steps →
      OnBoard (WalkPos move dir j).1 (WalkPos move dir j).2 = true ∧
      IsOpp b (PlayerToState player) (WalkPos move dir j)) ∧
    OnBoard (WalkPos move dir steps).1 (WalkPos move dir steps).2 = true ∧
    BoardAt b (WalkPos move dir steps).1 (WalkPos move dir steps).2 =
      PlayerToState player := by
  rw [countSteps_eq_aux h0 h1] at hcs
  have haux : CountStepsAux b (PlayerToState player) dir 64
      (GetNext (move / 8) (move % 8) dir).1
      (GetNext (move / 8) (move % 8) dir).2 0 = steps :=
    Option.some_injective _ hcs
  have hpos2 : 0 < CountStepsAux b (PlayerToState player) dir 64
      (GetNext (move / 8) (move % 8) dir).1
      (GetNext (move / 8) (move % 8) dir).2 0 := by omega
  obtain ⟨t, heq, hwalk, hcl1, hcl2⟩ :=
    countStepsAux_pos b (PlayerToState player) dir 64
      (GetNext (move / 8) (move % 8) dir).1
      (GetNext (move / 8) (move % 8) dir).2 0 hpos2
  have ht : t = steps := by omega
  subst ht
  exact ⟨fun j hj => hwalk j hj, hcl1, hcl2⟩

/-- The loop of `Capture`, fully characterized: when the `steps` cells to
visit are on-board opponent cells, it succeeds, paints exactly those
cells with the player's color and changes nothing else. -/
lemma captureAux_spec (cell : CellState) (dir : Direction) :
    ∀ (steps : Nat) (b : Board) (row col : Int),
    (∀ j, j < steps →
      OnBoard (StepN row col dir j).1 (StepN row col dir j).2 = true ∧
      IsOpp b cell (StepN row col dir j)) →
    ∃ b2, CaptureAux cell dir b steps row col = some b2 ∧
      (∀ j, j < steps →
        BoardAt b2 (StepN row col dir j).1 (StepN row col dir j).2 = cell) ∧
      (∀ i : Int, (∀ j, j < steps → i ≠ CellIdx (StepN row col dir j)) →
        b2 i = b i) := by
  intro steps
  induction steps with
  | zero =>
    intro b row col _
    exact ⟨b, rfl, fun j hj => absurd hj (by omega), fun i _ => rfl⟩
  | succ steps ih =>
    intro b row col hwalk
    have h0 := hwalk 0 (by omega)
    simp only [StepN] at h0
    obtain ⟨hob0, hopp0⟩ := h0
    have hnc : ¬ BoardAt b row col = cell := by simpa [IsOpp] using hopp0.1
    have hne : ¬ BoardAt b row col = CellState.empty := by
      simpa [IsOpp] using hopp0.2
    have hrcm := rowColToMove_of_onBoard hob0
    have hwalk2 : ∀ j, j < steps →
        OnBoard (StepN (GetNext row col dir).1 (GetNext row col dir).2 dir j).1
          (StepN (GetNext row col dir).1 (GetNext row col dir).2 dir j).2 =
          true ∧
        IsOpp (SetCell b (row * 8 + col) cell) cell
          (StepN (GetNext row col dir).1 (GetNext row col dir).2 dir j) := by
      intro j hj
      have hj2 := hwalk (j + 1) (by omega)
      rw [stepN_front] at hj2
      refine ⟨hj2.1, ?_⟩
      have hidx : CellIdx (StepN (GetNext row col dir).1
          (GetNext row col dir).2 dir j) ≠ row * 8 + col := by
        have := walk_cellIdx_ne row col dir
          (j + 1) 0 (by omega)
          (by rw [stepN_front]; exact hj2.1) (by simpa [StepN] using hob0)
        rw [stepN_front] at this
        simpa [StepN, CellIdx] using this
      simp only [IsOpp, BoardAt] at hj2 ⊢
      rw [SetCell, if_neg]
      · exact hj2.2
      · simpa [CellIdx] using hidx
    obtain ⟨b2, hcap, hpaint, hframe⟩ :=
      ih (SetCell b (row * 8 + col) cell) (GetNext row col dir).1
        (GetNext row col dir).2 hwalk2
    refine ⟨b2, ?_, ?_, ?_⟩
    · simp only [CaptureAux]
      rw [if_neg (by tauto), hrcm]
      exact hcap
    · intro j hj
      match j with
      | 0 =>
        simp only [StepN, BoardAt]
        rw [hframe (row * 8 + col) ?_, SetCell, if_pos rfl]
        intro j2 hj2
        have := walk_cellIdx_ne row col dir
          0 (j2 + 1) (by omega)
          (by simpa [StepN] using hob0)
          (by rw [stepN_front]; exact (hwalk2 j2 hj2).1)
        rw [stepN_front] at this
        simpa [StepN, CellIdx] using this
      | j + 1 =>
        rw [stepN_front]
        exact hpaint j (by omega)
    · intro i hi
      rw [hframe i ?_, SetCell, if_neg ?_]
      · have := hi 0 (by omega)
        simpa [StepN, CellIdx] using this
      · intro j2 hj2
        have := hi (j2 + 1) (by omega)
        rwa [stepN_front] at this

/-- `Capture` with the `steps` just computed by a positive `CountSteps`:
it succeeds and flips exactly the traversed opponent cells. -/
lemma capture_spec_of_countSteps {b : Board} {player : Fin 2} {move : Int}
    {dir : Direction} {steps : Nat} (h0 : 0 ≤ move) (h1 : move < 64)
    (hcs : CountSteps b player move dir = some steps) (hpos : 0 < steps) :
    ∃ b2, Capture b player move dir steps = some b2 ∧
      ∀ j, j < steps →
        (BoardAt b (WalkPos move dir j).1 (WalkPos move dir j).2 ≠
           PlayerToState player ∧
         BoardAt b (WalkPos move dir j).1 (WalkPos move dir j).2 ≠
           CellState.empty) ∧
        BoardAt b2 (WalkPos move dir j).1 (WalkPos move dir j).2 =
          PlayerToState player := by
  obtain ⟨hwalk, hcl1, hcl2⟩ := countSteps_pos_inv h0 h1 hcs hpos
  obtain ⟨b2, hcap, hpaint, hframe⟩ :=
    captureAux_spec (PlayerToState player) dir steps b
      (GetNext (move / 8) (move % 8) dir).1
      (GetNext (move / 8) (move % 8) dir).2 hwalk
  refine ⟨b2, ?_, ?_⟩
  · rw [Capture, rowColFromMove_of_range h0 h1]
    exact hcap
  · intro j hj
    exact ⟨(hwalk j hj).2, hpaint j hj⟩

lemma rowColFromMove_none {move : Int} (h : move < 0 ∨ 64 ≤ move) :
    RowColFromMove move = none := by
  rw [RowColFromMove, if_pos]
  simp only [kNumCells]
  omega

lemma countSteps_none {b : Board} {player : Fin 2} {dir : Direction}
    {move : Int} (h : move < 0 ∨ 64 ≤ move) :
    CountSteps b player move dir = none := by
  rw [CountSteps, rowColFromMove_none h]

lemma canCaptureAux_true_inv {b : Board} {p : Fin 2} {move : Int} :
    ∀ ds, CanCaptureAux b p move ds = some true →
    ∃ d k, CountSteps b p move d = some k ∧ k ≠ 0 := by
  intro ds
  induction ds with
  | nil => intro h; simp [CanCaptureAux] at h
  | cons d ds ih =>
    intro h
    cases hcs : CountSteps b p move d with
    | none => simp [CanCaptureAux, hcs] at h
    | some k =>
      simp only [CanCaptureAux, hcs] at h
      by_cases hk : k ≠ 0
      · exact ⟨d, k, hcs, hk⟩
      · rw [if_neg hk] at h
        exact ih h

lemma validAction_true_iff {b : Board} {p : Fin 2} {move : Int} :
    ValidAction b p move = some true ↔
      b move = CellState.empty ∧ CanCapture b p move = some true := by
  rw [ValidAction]
  by_cases h : b move = CellState.empty <;> simp [h]

lemma validAction_true_range {b : Board} {p : Fin 2} {move : Int}
    (hv : ValidAction b p move = some true) : 0 ≤ move ∧ move < 64 := by
  by_contra hrange
  rw [validAction_true_iff] at hv
  obtain ⟨hemp, hcc⟩ := hv
  rw [CanCapture, if_neg (by simp [hemp])] at hcc
  simp only [allDirections, CanCaptureAux] at hcc
  rw [countSteps_none (by omega)] at hcc
  simp at hcc

lemma mem_legalRegularActions {b : Board} {p : Fin 2} {a : Int} :
    a ∈ LegalRegularActions b p ↔
      0 ≤ a ∧ a < 64 ∧ ValidAction b p a = some true := by
  rw [LegalRegularActions, List.mem_filter]
  constructor
  · rintro ⟨hmem, hp⟩
    rw [List.mem_map] at hmem
    obtain ⟨n, hn, rfl⟩ := hmem
    rw [List.mem_range] at hn
    refine ⟨by simp only [Int.ofNat_eq_coe]; omega,
      by simp only [Int.ofNat_eq_coe]; omega, by simpa using hp⟩
  · rintro ⟨ha0, ha1, hv⟩
    refine ⟨?_, by simp [hv]⟩
    rw [List.mem_map]
    refine ⟨a.toNat, by rw [List.mem_range]; omega, ?_⟩
    simpa using Int.toNat_of_nonneg ha0

lemma countSteps_isSome {b : Board} {player : Fin 2} {move : Int}
    (h0 : 0 ≤ move) (h1 : move < 64) (dir : Direction) :
    ∃ k, CountSteps b player move dir = some k :=
  ⟨_, countSteps_eq_aux h0 h1⟩

lemma applyCapturesAux_isSome (p : Fin 2) {move : Int}
    (h0 : 0 ≤ move) (h1 : move < 64) :
    ∀ (ds : List Direction) (b : Board),
    ∃ b2, ApplyCapturesAux p move ds b = some b2 := by
  intro ds
  induction ds with
  | nil => intro b; exact ⟨b, rfl⟩
  | cons d ds ih =>
    intro b
    obtain ⟨k, hk⟩ := countSteps_isSome (b := b) h0 h1 d
    by_cases hkp : 0 < k
    · obtain ⟨b1, hcap, _⟩ := capture_spec_of_countSteps h0 h1 hk hkp
      obtain ⟨b2, h2⟩ := ih b1
      refine ⟨b2, ?_⟩
      simp only [ApplyCapturesAux]
      rw [hk]
      simp only [gt_iff_lt]
      rw [if_pos hkp, hcap]
      exact h2
    · obtain ⟨b2, h2⟩ := ih b
      refine ⟨b2, ?_⟩
      simp only [ApplyCapturesAux]
      rw [hk]
      simp only [gt_iff_lt]
      rw [if_neg hkp]
      exact h2

/-! The claims. -/

/-- C2: for every player, on-board move and direction, `CountSteps` walks
from the cell adjacent to `move`: having traversed `k` on-board opponent
cells, it returns `k` when it then reaches a cell of the placing player's
own color, `0` when it reaches an empty cell, and `0` when the walk exits
the board without closing on the player's own color. -/
theorem countSteps_flank_characterization (b : Board) (player : Fin 2)
    (move : Int) (dir : Direction) (k : Nat)
    (h0 : 0 ≤ move) (h1 : move < 64)
    (hwalk : ∀ j, j < k →
      OnBoard (WalkPos move dir j).1 (WalkPos move dir j).2 = true ∧
      IsOpp b (PlayerToState player) (WalkPos move dir j)) :
    (OnBoard (WalkPos move dir k).1 (WalkPos move dir k).2 = true ∧
       BoardAt b (WalkPos move dir k).1 (WalkPos move dir k).2 =
         PlayerToState player →
       CountSteps b player move dir = some k) ∧
    (OnBoard (WalkPos move dir k).1 (WalkPos move dir k).2 = true ∧
       BoardAt b (WalkPos move dir k).1 (WalkPos move dir k).2 =
         CellState.empty →
       CountSteps b player move dir = some 0) ∧
    (OnBoard (WalkPos move dir k).1 (WalkPos move dir k).2 = false →
       CountSteps b player move dir = some 0) := by
  have hs := countStepsAux_spec b (PlayerToState player) dir
    (playerToState_ne_empty player) k 64
    (GetNext (move / 8) (move % 8) dir).1
    (GetNext (move / 8) (move % 8) dir).2 0
    (by
      have hk : k ≤ 7 :=
        walk_onBoard_le move dir k h0 h1 (fun j hj => (hwalk j hj).1)
      omega)
    hwalk
  rw [countSteps_eq_aux h0 h1]
  refine ⟨fun h => ?_, fun h => ?_, fun h => ?_⟩
  · rw [hs.1 h]; simp
  · rw [hs.2.1 h]
  · rw [hs.2.2 h]

/-- Witness for C2: on the initial board, player 0, move 19 (d3), walking
down traverses the white disk at cell 27 and closes on the black disk at
cell 35, so `CountSteps` returns 1. -/
theorem countSteps_flank_characterization_witness :
    CountSteps InitialBoard 0 19 Direction.down = some 1 :=
  (countSteps_flank_characterization InitialBoard 0 19 Direction.down 1
    (by decide) (by decide) (by decide)).1 ⟨by decide, by decide⟩

/-- C4: with `steps` the value just computed by `CountSteps` (positive)
and the player's piece placed at `move`, `Capture` never reaches its
fatal branch: the `steps` visited cells all hold the opponent's color
(neither empty nor the player's color) and each is flipped to the
player's color. -/
theorem capture_consistency_safe (b : Board) (player : Fin 2) (move : Int)
    (dir : Direction) (steps : Nat)
    (h0 : 0 ≤ move) (h1 : move < 64)
    (_hplaced : b move = PlayerToState player)
    (hcs : CountSteps b player move dir = some steps) (hpos : 0 < steps) :
    ∃ b2, Capture b player move dir steps = some b2 ∧
      ∀ j, j < steps →
        (BoardAt b (WalkPos move dir j).1 (WalkPos move dir j).2 ≠
           PlayerToState player ∧
         BoardAt b (WalkPos move dir j).1 (WalkPos move dir j).2 ≠
           CellState.empty) ∧
        BoardAt b2 (WalkPos move dir j).1 (WalkPos move dir j).2 =
          PlayerToState player :=
  capture_spec_of_countSteps h0 h1 hcs hpos

/-- Witness for C4: after placing black at cell 0 of the witness board,
capturing right with the computed `steps = 1` succeeds. -/
theorem capture_consistency_safe_witness :
    W1Placed (0 : Int) = PlayerToState 0 ∧
    CountSteps W1Placed 0 0 Direction.right = some 1 ∧
    (Capture W1Placed 0 0 Direction.right 1).isSome = true := by
  refine ⟨by decide, by decide, ?_⟩
  obtain ⟨b2, hc, _⟩ := capture_consistency_safe W1Placed 0 0 Direction.right 1
    (by decide) (by decide) (by decide) (by decide) (by decide)
  rw [hc]
  rfl

/-- C6: applying the Pass action always succeeds and switches the current
player, changing nothing else: the board and the outcome are unchanged,
and neither a legality check nor an end-of-game check runs. -/
theorem pass_switches_player_only (s : OthelloState) :
    DoApplyAction s kPassMove =
      some { board := s.board, current := 1 - s.current,
             outcome := s.outcome } :=
  rfl

/-- C7: `RowColToMove` fails exactly when `row < 0`, `col < 0` or
`row * col ≥ 64` (the product check), and otherwise returns
`row * 8 + col`. -/
theorem rowColToMove_product_check (row col : Int) :
    (RowColToMove row col = none ↔
      (row < 0 ∨ col < 0 ∨ 64 ≤ row * col)) ∧
    (¬(row < 0 ∨ col < 0 ∨ 64 ≤ row * col) →
      RowColToMove row col = some (row * 8 + col)) := by
  constructor
  · rw [RowColToMove]
    by_cases h : row < 0 ∨ col < 0 ∨ row * col ≥ kNumCells
    · rw [if_pos h]
      simp only [kNumCells] at h
      exact iff_of_true rfl h
    · rw [if_neg h]
      simp only [kNumCells] at h
      constructor
      · intro hh
        exact absurd hh (by simp)
      · intro hh
        exact absurd hh h
  · intro h
    rw [RowColToMove, if_neg (by simpa only [kNumCells] using h)]
    rfl

/-- Witness for C7: (9, 5) passes the product check (45 < 64) even though
row 9 is off the board, and the conversion returns 77. -/
theorem rowColToMove_product_check_witness :
    ¬((9 : Int) < 0 ∨ (5 : Int) < 0 ∨ (64 : Int) ≤ 9 * 5) ∧
    RowColToMove 9 5 = some (9 * 8 + 5) :=
  ⟨by decide, (rowColToMove_product_check 9 5).2 (by decide)⟩

/-- C8: on the board range the conversions are mutually inverse —
`RowColFromMove move = (move / 8, move % 8)` and `RowColToMove` maps that
pair back to `move`, neither failing; outside `[0, 64)` the former fails
fatally. -/
theorem rowColFromMove_inverse (move : Int) :
    (0 ≤ move → move < 64 →
      RowColFromMove move = some (move / 8, move % 8) ∧
      RowColToMove (move / 8) (move % 8) = some move) ∧
    (move < 0 ∨ 64 ≤ move → RowColFromMove move = none) := by
  constructor
  · intro h0 h1
    refine ⟨rowColFromMove_of_range h0 h1, ?_⟩
    have hob : OnBoard (move / 8) (move % 8) = true := by
      rw [onBoard_iff]
      omega
    rw [rowColToMove_of_onBoard hob]
    congr 1
    omega
  · exact rowColFromMove_none

/-- Witness for C8 at move 19, and a fatal case at move 64. -/
theorem rowColFromMove_inverse_witness :
    RowColFromMove 19 = some (19 / 8, 19 % 8) ∧
    RowColToMove (19 / 8) (19 % 8) = some 19 ∧
    RowColFromMove 64 = none :=
  ⟨((rowColFromMove_inverse 19).1 (by decide) (by decide)).1,
   ((rowColFromMove_inverse 19).1 (by decide) (by decide)).2,
   (rowColFromMove_inverse 64).2 (by decide)⟩

/-- C10: on a state whose outcome is undecided, `Returns` does not fail
and yields `[0, 0]`, the very value returned for a terminal draw, and
`IsTerminal` is false. -/
theorem returns_undecided_zero (s : OthelloState)
    (h : s.outcome = kInvalidPlayer) :
    IsTerminal s = false ∧ Returns s = [0, 0] ∧
    ∀ t : OthelloState, t.outcome = kTerminalPlayerId →
      Returns t = Returns s := by
  refine ⟨?_, ?_, ?_⟩
  · simp [IsTerminal, h]
  · rw [Returns, h]
    simp [kInvalidPlayer]
  · intro t ht
    rw [Returns, Returns, h, ht]
    simp [kInvalidPlayer, kTerminalPlayerId]

/-- Witness for C10 at the initial state and a drawn terminal state. -/
theorem returns_undecided_zero_witness :
    InitialState.outcome = kInvalidPlayer ∧
    IsTerminal InitialState = false ∧
    Returns InitialState = [0, 0] ∧
    Returns { board := InitialBoard, current := 0,
              outcome := kTerminalPlayerId } = Returns InitialState :=
  ⟨rfl, (returns_undecided_zero InitialState rfl).1,
    (returns_undecided_zero InitialState rfl).2.1,
    (returns_undecided_zero InitialState rfl).2.2 _ rfl⟩

/-- C3: every non-Pass move returned by `LegalActions` applies without
reaching the fatal-error branch, and at the moment of application the
target cell is empty with at least one direction giving a non-zero
capture count for the current player. -/
theorem legalActions_apply_safe (s : OthelloState) (move : Int)
    (hmem : move ∈ LegalActions s) (hnp : move ≠ kPassMove) :
    (DoApplyAction s move).isSome = true ∧
    s.board move = CellState.empty ∧
    ∃ dir k, CountSteps s.board s.current move dir = some k ∧ k ≠ 0 := by
  rw [LegalActions] at hmem
  by_cases ht : IsTerminal s
  · rw [if_pos ht] at hmem
    simp at hmem
  · rw [if_neg ht] at hmem
    by_cases hemp : (LegalRegularActions s.board s.current).isEmpty
    · rw [if_pos hemp] at hmem
      simp at hmem
      exact absurd hmem hnp
    · rw [if_neg hemp] at hmem
      rw [mem_legalRegularActions] at hmem
      obtain ⟨h0, h1, hv⟩ := hmem
      obtain ⟨hbe, hcc⟩ := validAction_true_iff.mp hv
      refine ⟨?_, hbe, ?_⟩
      · have hne : ¬ move = kPassMove := hnp
        obtain ⟨b2, hb2⟩ := applyCapturesAux_isSome s.current h0 h1
          allDirections (SetCell s.board move (PlayerToState s.current))
        simp only [DoApplyAction, if_neg hne, hv, hb2]
        by_cases hnv : NoValidActions b2 <;> simp [hnv]
      · rw [CanCapture, if_neg (by simp [hbe])] at hcc
        exact canCaptureAux_true_inv allDirections hcc

/-- Witness for C3: move 19 is legal in the initial state and applies. -/
theorem legalActions_apply_safe_witness :
    (19 : Int) ∈ LegalActions InitialState ∧
    (DoApplyAction InitialState 19).isSome = true ∧
    InitialState.board (19 : Int) = CellState.empty := by
  have h := legalActions_apply_safe InitialState 19 (by decide) (by decide)
  exact ⟨by decide, h.1, h.2.1⟩

/-- C5: `LegalActions` is empty on a terminal state; otherwise it is
exactly the increasing list of cells in [0, 64) that are empty and for
which `CanCapture` holds for the current player, or the one-element list
`[Pass]` when that set is empty. -/
theorem legalActions_characterization (s : OthelloState) :
    (IsTerminal s = true → LegalActions s = []) ∧
    (IsTerminal s = false →
      (∀ a : Int, a ∈ LegalRegularActions s.board s.current ↔
        (0 ≤ a ∧ a < 64 ∧ s.board a = CellState.empty ∧
         CanCapture s.board s.current a = some true)) ∧
      List.Pairwise (· < ·) (LegalRegularActions s.board s.current) ∧
      (LegalRegularActions s.board s.current = [] →
        LegalActions s = [kPassMove]) ∧
      (LegalRegularActions s.board s.current ≠ [] →
        LegalActions s = LegalRegularActions s.board s.current)) := by
  constructor
  · intro ht
    rw [LegalActions, if_pos ht]
  · intro ht
    refine ⟨?_, ?_, ?_, ?_⟩
    · intro a
      rw [mem_legalRegularActions, validAction_true_iff]
    · have hbase : List.Pairwise (· < ·)
          ((List.range 64).map (Int.ofNat : Nat → Int)) := by
        refine List.Pairwise.map _ ?_ (List.pairwise_lt_range 64)
        intro a b hab
        simp only [Int.ofNat_eq_coe]
        omega
      exact hbase.filter _
    · intro hempty
      simp [LegalActions, ht, hempty]
    · intro hne
      have hfe : (LegalRegularActions s.board s.current).isEmpty = false := by
        cases hh : (LegalRegularActions s.board s.current).isEmpty
        · rfl
        · exact absurd (by simpa using hh) hne
      simp [LegalActions, ht, hfe]

/-- Witness for C5: the initial state is not terminal and move 19
satisfies the membership characterization. -/
theorem legalActions_characterization_witness :
    IsTerminal InitialState = false ∧
    (19 : Int) ∈ LegalRegularActions InitialState.board
      InitialState.current := by
  have h := (legalActions_characterization InitialState).2 (by decide)
  exact ⟨by decide, (h.1 19).mpr ⟨by decide, by decide, by decide, by decide⟩⟩

lemma obsWrite_apply (player : Fin 2) (b : Board) (t : Tensor)
    (cl : Fin 64) (ch : Fin 3) (i : Fin 64) :
    ObsWrite player b t cl ch i =
      if i = cl ∧ ch = HotChannel player (b (cl : Int)) then 1
      else t ch i := by
  simp only [ObsWrite, HotChannel]
  by_cases hp : player = 1
  · by_cases h2 : cellValue (b (cl : Int)) = 2
    · simp [hp, h2, TSet, and_comm]
    · by_cases h1 : cellValue (b (cl : Int)) = 1
      · simp [hp, h2, h1, TSet, and_comm]
      · simp [hp, h2, h1, TSet, and_comm]
  · simp [hp, TSet, and_comm]

lemma foldl_obsWrite (player : Fin 2) (b : Board) :
    ∀ (l : List (Fin 64)) (t : Tensor) (ch : Fin 3) (cl : Fin 64),
    (l.foldl (ObsWrite player b) t) ch cl =
      if cl ∈ l ∧ ch = HotChannel player (b (cl : Int)) then 1
      else t ch cl := by
  intro l
  induction l with
  | nil =>
    intro t ch cl
    simp
  | cons c rest ih =>
    intro t ch cl
    rw [List.foldl_cons, ih, obsWrite_apply]
    by_cases hmem : cl ∈ rest ∧ ch = HotChannel player (b (cl : Int))
    · rw [if_pos hmem, if_pos ⟨List.mem_cons_of_mem c hmem.1, hmem.2⟩]
    · rw [if_neg hmem]
      by_cases hcl : cl = c
      · subst hcl
        by_cases hch : ch = HotChannel player (b (cl : Int))
        · rw [if_pos ⟨rfl, hch⟩, if_pos ⟨List.mem_cons_self cl rest, hch⟩]
        · rw [if_neg (by tauto), if_neg (by tauto)]
      · rw [if_neg (by tauto)]
        have hnot : ¬(cl ∈ c :: rest ∧
            ch = HotChannel player (b (cl : Int))) := by
          rw [List.mem_cons]
          tauto
        rw [if_neg hnot]

/-- C9: the observation tensor one-hot encodes each cell: exactly the
channel `HotChannel` is 1 and the others are 0, where for player 0 the
hot channel is the raw stored cell value (0 = empty) and for player 1
values 1 and 2 are swapped, empty still mapping to channel 0. -/
theorem observationTensor_one_hot (player : Fin 2) (b : Board) (ch : Fin 3)
    (cell : Fin 64) :
    ObservationTensor player b ch cell =
      (if ch = HotChannel player (b (cell : Int)) then 1 else 0) ∧
    HotChannel 0 (b (cell : Int)) = cellValue (b (cell : Int)) ∧
    HotChannel 1 (b (cell : Int)) = Swap12 (cellValue (b (cell : Int))) := by
  refine ⟨?_, ?_, ?_⟩
  · rw [ObservationTensor, foldl_obsWrite]
    have hm : cell ∈ List.finRange 64 := List.mem_finRange cell
    by_cases hch : ch = HotChannel player (b (cell : Int)) <;>
      simp [hch, hm]
  · simp [HotChannel]
  · cases hbc : b (cell : Int) <;> simp [HotChannel, Swap12, cellValue]

/-- C1: after a regular (non-Pass) action is applied, if both players
then have zero legal regular moves the outcome is set to player 0 on
strictly more player-0 disks, player 1 on strictly more player-1 disks,
and draw on equality, `Returns` yields `[1,-1]` / `[-1,1]` / `[0,0]`
accordingly and `IsTerminal` holds; otherwise the outcome stays undecided
and the current player switches. -/
theorem doApplyAction_endgame (s : OthelloState) (move : Int)
    (s2 : OthelloState) (hout : s.outcome = kInvalidPlayer)
    (hnp : move ≠ kPassMove) (happ : DoApplyAction s move = some s2) :
    (NoValidActions s2.board = true →
      s2.outcome =
        (if DiskCount s2.board 0 > DiskCount s2.board 1 then 0
         else if DiskCount s2.board 0 < DiskCount s2.board 1 then 1
         else kTerminalPlayerId) ∧
      Returns s2 =
        (if DiskCount s2.board 0 > DiskCount s2.board 1 then
           [(1 : ℚ), -1]
         else if DiskCount s2.board 0 < DiskCount s2.board 1 then [-1, 1]
         else [0, 0]) ∧
      IsTerminal s2 = true) ∧
    (NoValidActions s2.board = false →
      s2.outcome = kInvalidPlayer ∧ IsTerminal s2 = false ∧
      s2.current = 1 - s.current) := by
  rw [DoApplyAction, if_neg hnp] at happ
  cases hv : ValidAction s.board s.current move with
  | none => simp [hv] at happ
  | some bv =>
    cases bv with
    | false => simp [hv] at happ
    | true =>
      simp only [hv] at happ
      cases hac : ApplyCapturesAux s.current move allDirections
          (SetCell s.board move (PlayerToState s.current)) with
      | none => simp [hac] at happ
      | some b2 =>
        simp only [hac] at happ
        by_cases hnv : NoValidActions b2
        · rw [if_pos hnv] at happ
          have hinj := Option.some_injective _ happ
          subst hinj
          refine ⟨fun _ => ⟨rfl, ?_, ?_⟩, fun hcon => ?_⟩
          · by_cases hd1 : DiskCount b2 0 > DiskCount b2 1
            · simp [Returns, hd1]
            · by_cases hd2 : DiskCount b2 0 < DiskCount b2 1
              · simp [Returns, hd1, hd2]
              · simp [Returns, hd1, hd2, kTerminalPlayerId]
          · by_cases hd1 : DiskCount b2 0 > DiskCount b2 1
            · simp [IsTerminal, hd1, kInvalidPlayer]
            · by_cases hd2 : DiskCount b2 0 < DiskCount b2 1
              · simp [IsTerminal, hd1, hd2, kInvalidPlayer]
              · simp [IsTerminal, hd1, hd2, kInvalidPlayer,
                  kTerminalPlayerId]
          · exact absurd hnv (by simp [hcon])
        · rw [if_neg hnv] at happ
          have hinj := Option.some_injective _ happ
          subst hinj
          refine ⟨fun hcon => absurd hcon (by simp [hnv]), fun _ => ?_⟩
          refine ⟨hout, ?_, rfl⟩
          simp [IsTerminal, hout, kInvalidPlayer]

/-- Witness for C1: on the witness state `W1`, playing cell 0 flips the
lone white disk, both players then have no regular move, and the game
ends 64–0 for player 0. -/
theorem doApplyAction_endgame_witness :
    W1.outcome = kInvalidPlayer ∧ (0 : Int) ≠ kPassMove ∧
    DoApplyAction W1 0 = some W1After ∧
    NoValidActions W1After.board = true ∧
    W1After.outcome = 0 ∧ Returns W1After = [1, -1] ∧
    IsTerminal W1After = true := by
  have happ : DoApplyAction W1 0 = some W1After := by rfl
  have h := (doApplyAction_endgame W1 0 W1After rfl (by decide) happ).1
    (by decide)
  exact ⟨rfl, by decide, happ, by decide, h.1.trans (by decide),
    h.2.1.trans (by decide), h.2.2⟩

end Othello
